import Mathlib

/-!
# Verification of the dendro token-gluing and token-tree assembly stage

Shallow embedding of `src/compiler/ast/src/token.rs` (the token model and the
gluing rule `Token::glue`) and `src/compiler/parse/src/lexer/token_tree.rs`
(the `TokenStreamBuilder` and the recursive-descent `TokenTrees` assembler),
together with theorems settling the specified properties.

External collaborators (`dendro_span::{span, symbol}`, `dendro_ast::token_stream`
and the raw-token source `Tokens`) are not part of the shown sources; the few
operations of theirs that this stage uses are modelled from the spec, each
marked `Modelled from the spec:` in its doc comment.
-/

namespace Dendro

/-- Modelled from the spec: a `Span` (from `dendro_span::span`, outside the
shown sources) identifies a contiguous range in source text. -/
structure Span where
  lo : Nat
  hi : Nat
deriving DecidableEq, Repr

/-- Modelled from the spec: two spans can be merged into a span covering both,
in order (`Span::to`, used by `Token::glue` as `self.span.to(&joint.span)`). -/
def Span.to (a b : Span) : Span := ⟨a.lo, b.hi⟩

/-- Modelled from the spec: a `Symbol` (from `dendro_span::symbol`) is an
interned string; we represent it directly as a `String`. -/
abbrev Symbol := String

/-- The quote character used to prefix lifetime names. -/
def quoteChar : Char := Char.ofNat 39

/-- Modelled from the spec: building a lifetime name by prefixing an identifier
with a quote character (`Symbol::new_owned(format!(...))` in `Token::glue`). -/
def lifetimeSymbol (name : Symbol) : Symbol := String.mk (quoteChar :: name.data)

/-- Type `BinOpToken` from `token.rs`. -/
inductive BinOpToken where
  | Plus | Minus | Star | Slash | BackSlash | Percent | Caret
  | And | Or | Shl | Shr
deriving DecidableEq, Repr

/-- Type `CommentKind` from `token.rs`. -/
inductive CommentKind where
  | Line | Block
deriving DecidableEq, Repr

/-- Type `AttrStyle` from `token.rs`. -/
inductive AttrStyle where
  | Outer | Inner
deriving DecidableEq, Repr

/-- Type `Delimiter` from `token.rs`. -/
inductive Delimiter where
  | Parenthesis | Brace | Bracket
deriving DecidableEq, Repr

/-- Type `LitKind` from `token.rs`. -/
inductive LitKind where
  | Bool | Byte | Char | Integer | Float | Str | ByteStr | CStr
deriving DecidableEq, Repr

/-- Type `Lit` from `token.rs`. -/
structure Lit where
  kind : LitKind
  symbol : Symbol
  suffix : Option Symbol
deriving DecidableEq, Repr

/-- Type `TokenKind` from `token.rs`. -/
inductive TokenKind where
  | Eq | Lt | Le | EqEq | Ne | Ge | Gt | AndAnd | OrOr | Not | Tilde
  | BinOp (op : BinOpToken)
  | BinOpEq (op : BinOpToken)
  | At | Dot | DotDot | DotDotDot | DotDotEq | Comma | Semi | Colon
  | ColonColon | RArrow | LArrow | FatArrow | Pound | Dollar | Question
  | SingleQuote
  | OpenDelim (d : Delimiter)
  | CloseDelim (d : Delimiter)
  | Literal (lit : Lit)
  | Ident (name : Symbol) (is_raw : Bool)
  | Lifetime (name : Symbol)
  | DocComment (ck : CommentKind) (style : AttrStyle) (body : Symbol)
deriving DecidableEq, Repr

/-- Type `Token` from `token.rs`. -/
structure Token where
  kind : TokenKind
  span : Span
deriving DecidableEq, Repr

/-- Constructor `Token::new`. -/
def Token.new (kind : TokenKind) (span : Span) : Token := ⟨kind, span⟩

/-- Function `Token::glue` from `token.rs` lines 172-229: attempt to merge `self` with
the immediately following token `joint` into one compound token. -/
def Token.glue (self joint : Token) : Option Token :=
  let kind? : Option TokenKind :=
    match self.kind with
    | .Eq =>
      match joint.kind with
      | .Eq => some .EqEq
      | .Gt => some .FatArrow
      | _ => none
    | .Lt =>
      match joint.kind with
      | .Eq => some .Le
      | .Lt => some (.BinOp .Shl)
      | .Le => some (.BinOpEq .Shl)
      | .BinOp .Minus => some .LArrow
      | _ => none
    | .Gt =>
      match joint.kind with
      | .Eq => some .Ge
      | .Gt => some (.BinOp .Shr)
      | .Ge => some (.BinOpEq .Shr)
      | _ => none
    | .Not =>
      match joint.kind with
      | .Eq => some .Ne
      | _ => none
    | .BinOp op =>
      match joint.kind with
      | .Eq => some (.BinOpEq op)
      | .BinOp .And => if op = .And then some .AndAnd else none
      | .BinOp .Or => if op = .Or then some .OrOr else none
      | .Gt => if op = .Minus then some .RArrow else none
      | _ => none
    | .Dot =>
      match joint.kind with
      | .Dot => some .DotDot
      | .DotDot => some .DotDotDot
      | _ => none
    | .DotDot =>
      match joint.kind with
      | .Dot => some .DotDotDot
      | .Eq => some .DotDotEq
      | _ => none
    | .Colon =>
      match joint.kind with
      | .Colon => some .ColonColon
      | _ => none
    | .SingleQuote =>
      match joint.kind with
      | .Ident name false => some (.Lifetime (lifetimeSymbol name))
      | _ => none
    | .Le | .EqEq | .Ne | .Ge | .AndAnd | .OrOr | .Tilde | .BinOpEq _ | .At
    | .DotDotDot | .DotDotEq | .Comma | .Semi | .ColonColon | .RArrow
    | .LArrow | .FatArrow | .Pound | .Dollar | .Question | .OpenDelim _
    | .CloseDelim _ | .Literal _ | .Ident _ _ | .Lifetime _
    | .DocComment _ _ _ => none
  kind?.map fun kind => Token.new kind (self.span.to joint.span)

/-- Modelled from the spec: the adjacency hint (`Spacing` from
`dendro_ast::token_stream`, outside the shown sources): `Joint` means no
separation before the next token, `Alone` means gluing must not apply. -/
inductive Spacing where
  | Alone | Joint
deriving DecidableEq, Repr

/-- Type `TokenTree` (from `dendro_ast::token_stream`): a leaf token or a delimited
group whose `inner` content is itself a stream of (tree, spacing) pairs. The
`open`/`close` fields are rendered `openSpan`/`closeSpan`. -/
inductive TokenTree where
  | Token (tok : Token)
  | Delimited (openSpan closeSpan : Span) (delim : Delimiter)
      (inner : List (TokenTree × Spacing))
deriving Repr

/-- Modelled from the spec: a `TokenStream` is an ordered sequence of
(tree element, adjacency hint) pairs. -/
abbrev TokenStream := List (TokenTree × Spacing)

/-- Type `TokenStreamBuilder` from `token_tree.rs` lines 109-111. -/
structure TokenStreamBuilder where
  vec : List (TokenTree × Spacing)
deriving Repr

/-- Constructor `TokenStreamBuilder::new`. -/
def TokenStreamBuilder.new : TokenStreamBuilder := ⟨[]⟩

/-- Method `TokenStreamBuilder::push` from `token_tree.rs` lines 118-128: if the last
accumulated pair is a leaf token tagged `Joint`, the incoming element is a leaf
token, and gluing succeeds, replace the last pair with (glued token, incoming
hint); otherwise append the pair unchanged. -/
def TokenStreamBuilder.push (b : TokenStreamBuilder) (elem : TokenTree × Spacing) :
    TokenStreamBuilder :=
  match elem with
  | (tree, joint) =>
    match b.vec.getLast?, tree with
    | some (.Token prev_token, .Joint), .Token token =>
      match prev_token.glue token with
      | some glued => ⟨b.vec.dropLast ++ [(.Token glued, joint)]⟩
      | none => ⟨b.vec ++ [(tree, joint)]⟩
    | _, _ => ⟨b.vec ++ [(tree, joint)]⟩

/-- Method `TokenStreamBuilder::build`: modelled from the spec, `TokenStream::new`
(outside the shown sources) wraps the accumulated sequence unchanged. -/
def TokenStreamBuilder.build (b : TokenStreamBuilder) : TokenStream := b.vec

/-- The structural errors and defect outcomes of the assembler. The Rust code
produces formatted strings (`token_tree.rs` lines 41 and 51); we model them
structurally, carrying exactly the data interpolated into those messages. The
`unreachable` values model the `unreachable!()` panics at lines 55, 66 and 72,
and `outOfFuel` is the (never occurring, as proved below) exhaustion of
the step budget used to express the recursion. -/
inductive TTError where
  | unclosedDelimiter (delim : Delimiter) (openSpan : Span)
  | mismatchedDelimiter (delim : Delimiter) (openSpan : Span)
      (found : Delimiter) (foundSpan : Span)
  | unreachableAfterInner
  | unreachableCloseDelim
  | unreachableNoCurrent
  | outOfFuel
deriving DecidableEq, Repr

/-- Type `TokenTrees` from `token_tree.rs` lines 12-18. The external raw-token
source `Tokens` is modelled from the spec: a pull-based producer of
(adjacency hint, token) pairs that returns no token, permanently, once
exhausted; we represent the pending pulls as the list `tokens`. -/
structure TokenTrees where
  tokens : List (Spacing × Token)
  current : Option Token
deriving Repr

/-- Constructor `TokenTrees::new`: `current` starts absent. -/
def TokenTrees.new (tokens : List (Spacing × Token)) : TokenTrees :=
  ⟨tokens, none⟩

/-- Method `TokenTrees::bump` from `token_tree.rs` lines 76-80: pull once from the
raw-token source into `current`, returning the accompanying adjacency hint.
Modelled from the spec: at end of input the source keeps returning no token;
the hint it reports there is immaterial to every property below and is taken
to be `Alone`. -/
def TokenTrees.bump (s : TokenTrees) : Spacing × TokenTrees :=
  match s.tokens with
  | [] => (.Alone, { s with current := none })
  | (spacing, t) :: rest => (spacing, ⟨rest, some t⟩)

/-- Modelled from the spec: the `(TokenTree, Spacing)` conversion applied to a
completed `Delimited` group (`delimited.into()` at `token_tree.rs` line 64
lives in `dendro_ast::token_stream`, outside the shown sources); the hint
attached to a completed group is taken to be `Alone`. -/
def delimitedSpacing : Spacing := .Alone

mutual

/-- Method `TokenTrees::next_token_tree` from `token_tree.rs` lines 31-74, expressed
with an explicit step budget `fuel` (each recursive call uses one unit;
the budget chosen by `TokenTrees.parse` is proved below never to run
out). States are threaded explicitly; an error is returned together with the
state at the moment it arose, as the Rust code leaves `self` in that state. -/
def nextTokenTree : Nat → TokenTrees → Except TTError (TokenTree × Spacing) × TokenTrees
  | 0, s => (.error .outOfFuel, s)
  | fuel + 1, s =>
    match s.current with
    | none => (.error .unreachableNoCurrent, s)
    | some token =>
      match token.kind with
      | .OpenDelim delim =>
        let openSpan := token.span
        let s1 := (s.bump).2
        match tokenTreesUntilCloseDelim fuel s1 .new with
        | (.error e, s2) => (.error e, s2)
        | (.ok inner, s2) =>
          match s2.current with
          | none => (.error (.unclosedDelimiter delim openSpan), s2)
          | some current =>
            let closeSpan := current.span
            match current.kind with
            | .CloseDelim d =>
              if d = delim then
                let s3 := (s2.bump).2
                (.ok (.Delimited openSpan closeSpan delim inner, delimitedSpacing), s3)
              else
                (.error (.mismatchedDelimiter delim openSpan d closeSpan), s2)
            | _ => (.error .unreachableAfterInner, s2)
      | .CloseDelim _ => (.error .unreachableCloseDelim, s)
      | _ =>
        let (spacing, s1) := s.bump
        (.ok (.Token token, spacing), s1)

/-- Method `TokenTrees::token_trees_until_close_delim` from `token_tree.rs` lines
82-97: accumulate token trees into the builder `vec` until `current` is absent
or holds a close delimiter, which is left unconsumed. -/
def tokenTreesUntilCloseDelim : Nat → TokenTrees → TokenStreamBuilder →
    Except TTError TokenStream × TokenTrees
  | 0, s, _ => (.error .outOfFuel, s)
  | fuel + 1, s, vec =>
    let isEofOrClose :=
      match s.current with
      | none => true
      | some t =>
        match t.kind with
        | .CloseDelim _ => true
        | _ => false
    if isEofOrClose then (.ok vec.build, s)
    else
      match nextTokenTree fuel s with
      | (.error e, s1) => (.error e, s1)
      | (.ok p, s1) => tokenTreesUntilCloseDelim fuel s1 (vec.push p)

end

/-- The loop of `TokenTrees::parse` (`token_tree.rs` lines 102-104): while
`current` is present, read one token tree and push it into the builder. -/
def parseLoop : Nat → TokenTrees → TokenStreamBuilder →
    Except TTError TokenStream × TokenTrees
  | 0, s, _ => (.error .outOfFuel, s)
  | fuel + 1, s, vec =>
    match s.current with
    | none => (.ok vec.build, s)
    | some _ =>
      match nextTokenTree fuel s with
      | (.error e, s1) => (.error e, s1)
      | (.ok p, s1) => parseLoop fuel s1 (vec.push p)

/-- The step budget given to `parseLoop`; it is proved below to be
sufficient for every input. -/
def parseFuel (src : List (Spacing × Token)) : Nat := 2 * src.length + 1

/-- Method `TokenTrees::parse` from `token_tree.rs` lines 99-106, run on a raw-token
source holding the pulls `src`: bump once, then loop until input is exhausted. -/
def TokenTrees.parse (src : List (Spacing × Token)) : Except TTError TokenStream :=
  let s := ((TokenTrees.new src).bump).2
  (parseLoop (parseFuel src) s .new).1

/-! ## The gluing rule table of spec section 4.1

`glueKindSpec` is written from the spec's words (the twenty-row rule table),
independently of `Token.glue`, to be compared against it. -/

/-- The spec's section 4.1 rule table, row by row: which pair of elementary
token kinds glues, and to which compound kind. Every pair not in the table
reports no glue. -/
def glueKindSpec : TokenKind → TokenKind → Option TokenKind
  | .Eq, .Eq => some .EqEq
  | .Eq, .Gt => some .FatArrow
  | .Lt, .Eq => some .Le
  | .Lt, .Lt => some (.BinOp .Shl)
  | .Lt, .Le => some (.BinOpEq .Shl)
  | .Lt, .BinOp .Minus => some .LArrow
  | .Gt, .Eq => some .Ge
  | .Gt, .Gt => some (.BinOp .Shr)
  | .Gt, .Ge => some (.BinOpEq .Shr)
  | .Not, .Eq => some .Ne
  | .BinOp op, .Eq => some (.BinOpEq op)
  | .BinOp .And, .BinOp .And => some .AndAnd
  | .BinOp .Or, .BinOp .Or => some .OrOr
  | .BinOp .Minus, .Gt => some .RArrow
  | .Dot, .Dot => some .DotDot
  | .Dot, .DotDot => some .DotDotDot
  | .DotDot, .Dot => some .DotDotDot
  | .DotDot, .Eq => some .DotDotEq
  | .Colon, .Colon => some .ColonColon
  | .SingleQuote, .Ident name false => some (.Lifetime (lifetimeSymbol name))
  | _, _ => none

/-- Helper: `Token.glue` agrees, on every pair of tokens, with the spec's rule
table on the kind, and puts the covering span on the result. -/
theorem glue_eq_table (ka kb : TokenKind) (sa sb : Span) :
    Token.glue ⟨ka, sa⟩ ⟨kb, sb⟩
      = (glueKindSpec ka kb).map fun k => Token.new k (sa.to sb) := by
  cases ka <;> cases kb <;> try rfl
  all_goals try (rename_i b; cases b <;> rfl)
  all_goals try (rename_i a b; cases a <;> cases b <;> rfl)
  all_goals try (rename_i a b c; cases a <;> rfl)
  all_goals try (rename_i a b c d; cases a <;> rfl)

/-- Whether a token kind is a delimiter marker (open or close). -/
def isDelimKind : TokenKind → Bool
  | .OpenDelim _ => true
  | .CloseDelim _ => true
  | _ => false

set_option maxHeartbeats 1600000 in
/-- Helper: no row of the spec's rule table produces a delimiter kind. -/
theorem glueKindSpec_not_delim (ka kb k : TokenKind) (h : glueKindSpec ka kb = some k) :
    isDelimKind k = false := by
  unfold glueKindSpec at h
  split at h <;> cases h <;> rfl

/-- Helper: gluing never produces a token of delimiter kind. -/
theorem glue_not_delim (a b c : Token) (h : Token.glue a b = some c) :
    isDelimKind c.kind = false := by
  obtain ⟨ka, sa⟩ := a
  obtain ⟨kb, sb⟩ := b
  rw [glue_eq_table] at h
  obtain ⟨k, hk, rfl⟩ := Option.map_eq_some'.mp h
  exact glueKindSpec_not_delim ka kb k hk

/-- Claim C1: for every pair of elementary tokens, `Token.glue` returns a
compound token exactly when the pair of kinds is a row of the spec's section
4.1 rule table, with the compound kind given by that table and the covering
span of the two constituent spans in order; for every other pair of kinds it
returns no glue. -/
theorem glue_matches_spec_table (A B : Token) :
    Token.glue A B = (glueKindSpec A.kind B.kind).map fun k => Token.new k (A.span.to B.span) := by
  obtain ⟨ka, sa⟩ := A
  obtain ⟨kb, sb⟩ := B
  exact glue_eq_table ka kb sa sb

/-- Claim C2: `TokenStreamBuilder.push` replaces the last accumulated pair
exactly when that pair is a leaf token tagged `Joint`, the incoming element is
a leaf token, and gluing succeeds on the two tokens; the replacement carries
the incoming hint, and in every other case the pair is appended unchanged,
the earlier pairs being untouched either way. -/
theorem push_glues_iff (b : TokenStreamBuilder) (tree : TokenTree) (hint : Spacing) :
    (∃ prev tok glued,
        b.vec.getLast? = some (.Token prev, .Joint) ∧
        tree = .Token tok ∧
        Token.glue prev tok = some glued ∧
        b.push (tree, hint) = ⟨b.vec.dropLast ++ [(.Token glued, hint)]⟩)
    ∨ ((¬ ∃ prev tok, b.vec.getLast? = some (.Token prev, .Joint) ∧
          tree = .Token tok ∧ (Token.glue prev tok).isSome = true) ∧
        b.push (tree, hint) = ⟨b.vec ++ [(tree, hint)]⟩) := by
  rcases hl : b.vec.getLast? with _ | ⟨ptree, psp⟩
  · right
    refine ⟨?_, by simp only [TokenStreamBuilder.push, hl]⟩
    rintro ⟨prev, tok, hp, -, -⟩
    simp_all
  · cases ptree with
    | Delimited o c d i =>
      right
      refine ⟨?_, by simp only [TokenStreamBuilder.push, hl]⟩
      rintro ⟨prev, tok, hp, -, -⟩
      simp_all
    | Token prev =>
      cases psp with
      | Alone =>
        right
        refine ⟨?_, by simp only [TokenStreamBuilder.push, hl]⟩
        rintro ⟨prev', tok, hp, -, -⟩
        simp_all
      | Joint =>
        cases tree with
        | Delimited o c d i =>
          right
          refine ⟨?_, by simp only [TokenStreamBuilder.push, hl]⟩
          rintro ⟨prev', tok, -, ht, -⟩
          simp_all
        | Token tok =>
          rcases hg : Token.glue prev tok with _ | glued
          · right
            refine ⟨?_, by simp only [TokenStreamBuilder.push, hl, hg]⟩
            rintro ⟨prev', tok', hp, ht, hs⟩
            simp_all
          · left
            exact ⟨prev, tok, glued, rfl, rfl, hg,
              by simp only [TokenStreamBuilder.push, hl, hg]⟩

/-- Claim C7: pushing three `Dot` leaf tokens at spans [0,1), [1,2), [2,3),
each tagged `Joint`, into a fresh builder yields a single leaf token of kind
`DotDotDot` spanning [0,3); the merge happens as two sequential glue steps,
`Dot`+`Dot` to `DotDot` and then `DotDot`+`Dot` to `DotDotDot`. -/
theorem three_joint_dots_build_dotdotdot :
    (((TokenStreamBuilder.new.push (.Token ⟨.Dot, ⟨0, 1⟩⟩, .Joint)).push
        (.Token ⟨.Dot, ⟨1, 2⟩⟩, .Joint)).push (.Token ⟨.Dot, ⟨2, 3⟩⟩, .Joint)).build
      = [(.Token ⟨.DotDotDot, ⟨0, 3⟩⟩, .Joint)] ∧
    Token.glue ⟨.Dot, ⟨0, 1⟩⟩ ⟨.Dot, ⟨1, 2⟩⟩ = some ⟨.DotDot, ⟨0, 2⟩⟩ ∧
    Token.glue ⟨.DotDot, ⟨0, 2⟩⟩ ⟨.Dot, ⟨2, 3⟩⟩ = some ⟨.DotDotDot, ⟨0, 3⟩⟩ :=
  ⟨rfl, rfl, rfl⟩

/-- Claim C8: a `SingleQuote` token glues with a following non-raw identifier
to a `Lifetime` token whose symbol is the identifier prefixed with the quote
character (so identifier `a` yields the two-character symbol quote-`a`), and
does not glue with a raw identifier. -/
theorem single_quote_ident_glue (name : Symbol) (sa sb : Span) :
    Token.glue ⟨.SingleQuote, sa⟩ ⟨.Ident name false, sb⟩
      = some ⟨.Lifetime (lifetimeSymbol name), sa.to sb⟩ ∧
    Token.glue ⟨.SingleQuote, sa⟩ ⟨.Ident name true, sb⟩ = none ∧
    lifetimeSymbol "a" = String.mk [quoteChar, 'a'] :=
  ⟨rfl, rfl, rfl⟩

/-- Claim C3: when an open delimiter of kind `delim` at span `openSpan` has
been consumed and reading tokens until a close delimiter exhausts the input
(no token left at that nesting level), `next_token_tree` fails with the
unclosed-delimiter error naming `delim` and `openSpan` and reporting end of
input; in particular, the one-token input consisting of an open parenthesis
fails with the unclosed-delimiter error naming `Parenthesis` and its span. -/
theorem open_then_eof_is_unclosed_error :
    (∀ (fuel : Nat) (s s1 : TokenTrees) (delim : Delimiter) (openSpan : Span)
        (inner : TokenStream),
        s.current = some ⟨.OpenDelim delim, openSpan⟩ →
        tokenTreesUntilCloseDelim fuel ((s.bump).2) .new = (.ok inner, s1) →
        s1.current = none →
        nextTokenTree (fuel + 1) s = (.error (.unclosedDelimiter delim openSpan), s1)) ∧
    TokenTrees.parse [(.Alone, ⟨.OpenDelim .Parenthesis, ⟨0, 1⟩⟩)]
      = .error (.unclosedDelimiter .Parenthesis ⟨0, 1⟩) := by
  refine ⟨?_, rfl⟩
  intro fuel s s1 delim openSpan inner hcur hinner hnone
  simp only [nextTokenTree, hcur, hinner, hnone]

/-- Witness for claim C3 at the concrete one-token input: an open parenthesis
followed by end of input yields the unclosed-delimiter error, the final state
being the exhausted one. -/
theorem open_then_eof_is_unclosed_error_witness :
    nextTokenTree 2 ⟨[], some ⟨.OpenDelim .Parenthesis, ⟨0, 1⟩⟩⟩
      = (.error (.unclosedDelimiter .Parenthesis ⟨0, 1⟩), ⟨[], none⟩) :=
  open_then_eof_is_unclosed_error.1 1 ⟨[], some ⟨.OpenDelim .Parenthesis, ⟨0, 1⟩⟩⟩
    ⟨[], none⟩ .Parenthesis ⟨0, 1⟩ [] rfl rfl rfl

/-- Claim C4: when an open delimiter of kind `delim` at span `openSpan` has
been consumed and reading tokens until a close delimiter stops at a close
delimiter of a different kind `d` at span `closeSpan`, `next_token_tree` fails
with the mismatched-delimiter error naming both kinds and both spans, and the
state returned is the one still holding the mismatched close delimiter in
`current` (it is not consumed); in particular, an open parenthesis followed by
a close bracket fails that way. -/
theorem open_then_mismatched_close_error :
    (∀ (fuel : Nat) (s s1 : TokenTrees) (delim : Delimiter) (openSpan : Span)
        (inner : TokenStream) (d : Delimiter) (closeSpan : Span),
        s.current = some ⟨.OpenDelim delim, openSpan⟩ →
        tokenTreesUntilCloseDelim fuel ((s.bump).2) .new = (.ok inner, s1) →
        s1.current = some ⟨.CloseDelim d, closeSpan⟩ →
        d ≠ delim →
        nextTokenTree (fuel + 1) s
          = (.error (.mismatchedDelimiter delim openSpan d closeSpan), s1)) ∧
    TokenTrees.parse [(.Alone, ⟨.OpenDelim .Parenthesis, ⟨0, 1⟩⟩),
        (.Alone, ⟨.CloseDelim .Bracket, ⟨2, 3⟩⟩)]
      = .error (.mismatchedDelimiter .Parenthesis ⟨0, 1⟩ .Bracket ⟨2, 3⟩) := by
  refine ⟨?_, rfl⟩
  intro fuel s s1 delim openSpan inner d closeSpan hcur hinner hclose hne
  simp only [nextTokenTree, hcur, hinner, hclose, if_neg hne]

/-- Witness for claim C4 at the concrete input: open parenthesis then close
bracket yields the mismatched-delimiter error, the close bracket remaining in
`current` of the returned state. -/
theorem open_then_mismatched_close_error_witness :
    nextTokenTree 2
        ⟨[(.Alone, ⟨.CloseDelim .Bracket, ⟨2, 3⟩⟩)], some ⟨.OpenDelim .Parenthesis, ⟨0, 1⟩⟩⟩
      = (.error (.mismatchedDelimiter .Parenthesis ⟨0, 1⟩ .Bracket ⟨2, 3⟩),
          ⟨[], some ⟨.CloseDelim .Bracket, ⟨2, 3⟩⟩⟩) :=
  open_then_mismatched_close_error.1 1
    ⟨[(.Alone, ⟨.CloseDelim .Bracket, ⟨2, 3⟩⟩)], some ⟨.OpenDelim .Parenthesis, ⟨0, 1⟩⟩⟩
    ⟨[], some ⟨.CloseDelim .Bracket, ⟨2, 3⟩⟩⟩ .Parenthesis ⟨0, 1⟩ [] .Bracket ⟨2, 3⟩
    rfl rfl rfl (by decide)

/-! ## Termination of assembly -/

/-- The number of tokens the assembler can still consume: the pending pulls
plus the one token of lookahead. -/
def TokenTrees.measure (s : TokenTrees) : Nat :=
  s.tokens.length + (if s.current.isSome then 1 else 0)

theorem TokenTrees.measure_pos (s : TokenTrees) (h : s.current.isSome = true) :
    1 ≤ s.measure := by
  simp [TokenTrees.measure, h]

theorem TokenTrees.bump_measure_some (s : TokenTrees) (t : Token)
    (h : s.current = some t) : ((s.bump).2).measure + 1 = s.measure := by
  obtain ⟨tokens, current⟩ := s
  cases h
  cases tokens with
  | nil => simp [TokenTrees.bump, TokenTrees.measure]
  | cons p rest =>
    obtain ⟨sp, tt⟩ := p
    simp [TokenTrees.bump, TokenTrees.measure]

theorem TokenTrees.bump_measure_none (s : TokenTrees) (h : s.current = none) :
    ((s.bump).2).measure = s.measure := by
  obtain ⟨tokens, current⟩ := s
  cases h
  cases tokens with
  | nil => simp [TokenTrees.bump, TokenTrees.measure]
  | cons p rest =>
    obtain ⟨sp, tt⟩ := p
    simp [TokenTrees.bump, TokenTrees.measure]

/-- Helper: with a step budget of at least twice the remaining token count,
neither assembler function runs out of budget, and a successful step strictly
consumes input. -/
theorem fuel_sufficient (n : Nat) :
    (∀ (s : TokenTrees) (res : Except TTError (TokenTree × Spacing)) (s' : TokenTrees),
        nextTokenTree n s = (res, s') → s.current.isSome = true → 2 * s.measure ≤ n →
        res ≠ .error .outOfFuel ∧ ∀ p, res = .ok p → s'.measure + 1 ≤ s.measure) ∧
    (∀ (s : TokenTrees) (vec : TokenStreamBuilder) (res : Except TTError TokenStream)
        (s' : TokenTrees),
        tokenTreesUntilCloseDelim n s vec = (res, s') → 2 * s.measure + 1 ≤ n →
        res ≠ .error .outOfFuel ∧ ∀ r, res = .ok r → s'.measure ≤ s.measure) := by
  induction n with
  | zero =>
    constructor
    · intro s res s' _ hsome hle
      have := TokenTrees.measure_pos s hsome
      omega
    · intro s vec res s' _ hle
      omega
  | succ n ih =>
    obtain ⟨ihA, ihB⟩ := ih
    constructor
    · intro s res s' hres hsome hle
      obtain ⟨t, hcur⟩ := Option.isSome_iff_exists.mp hsome
      have hm1 := TokenTrees.measure_pos s hsome
      have hbm := TokenTrees.bump_measure_some s t hcur
      simp only [nextTokenTree, hcur] at hres
      split at hres
      · -- open-delimiter branch
        rcases hu : tokenTreesUntilCloseDelim n ((s.bump).2) .new with ⟨res2, s2⟩
        rw [hu] at hres
        have hb2 : 2 * ((s.bump).2).measure + 1 ≤ n := by omega
        obtain ⟨hne2, hok2⟩ := ihB _ _ _ _ hu hb2
        cases res2 with
        | error e =>
          dsimp only at hres
          injection hres with h1 h2
          subst h1
          subst h2
          have he : e ≠ TTError.outOfFuel := fun h => hne2 (by rw [h])
          refine ⟨?_, ?_⟩
          · intro h
            injection h with h3
            exact he h3
          · intro p hp
            cases hp
        | ok inner =>
          have hms2 : s2.measure ≤ ((s.bump).2).measure := hok2 inner rfl
          dsimp only at hres
          cases hc2 : s2.current with
          | none =>
            rw [hc2] at hres
            dsimp only at hres
            injection hres with h1 h2
            subst h1
            subst h2
            exact ⟨(by intro h; injection h with h3; cases h3), (by intro p hp; cases hp)⟩
          | some c =>
            rw [hc2] at hres
            dsimp only at hres
            split at hres
            · -- close delimiter of some kind
              split at hres
              · -- matching kind
                injection hres with h1 h2
                subst h1
                subst h2
                have hbm2 := TokenTrees.bump_measure_some s2 c hc2
                refine ⟨(by intro h; injection h), ?_⟩
                intro p hp
                omega
              · -- mismatched kind
                injection hres with h1 h2
                subst h1
                subst h2
                exact ⟨(by intro h; injection h with h3; cases h3), (by intro p hp; cases hp)⟩
            · -- non-close token after the inner read: defect value
              injection hres with h1 h2
              subst h1
              subst h2
              exact ⟨(by intro h; injection h with h3; cases h3), (by intro p hp; cases hp)⟩
      · -- close-delimiter branch: defect value
        injection hres with h1 h2
        subst h1
        subst h2
        exact ⟨(by intro h; injection h with h3; cases h3), (by intro p hp; cases hp)⟩
      · -- ordinary leaf token
        rcases hb : s.bump with ⟨sp, s1⟩
        rw [hb] at hres hbm
        dsimp only at hres hbm
        injection hres with h1 h2
        subst h1
        subst h2
        refine ⟨(by intro h; injection h), ?_⟩
        intro p hp
        omega
    · intro s vec res s' hres hle
      simp only [tokenTreesUntilCloseDelim] at hres
      split at hres
      · injection hres with h1 h2
        subst h1
        subst h2
        exact ⟨(by intro h; injection h), (by intro r hr; injection hr with h3; omega)⟩
      · rcases hn : nextTokenTree n s with ⟨res1, s1⟩
        rw [hn] at hres
        have hsome : s.current.isSome = true := by
          rename_i hcond
          cases hc : s.current with
          | none => rw [hc] at hcond; simp at hcond
          | some t => rfl
        obtain ⟨hne1, hok1⟩ := ihA _ _ _ hn hsome (by omega)
        cases res1 with
        | error e =>
          dsimp only at hres
          injection hres with h1 h2
          subst h1
          subst h2
          have he : e ≠ TTError.outOfFuel := fun h => hne1 (by rw [h])
          refine ⟨?_, ?_⟩
          · intro h
            injection h with h3
            exact he h3
          · intro r hr
            cases hr
        | ok p =>
          have hms1 : s1.measure + 1 ≤ s.measure := hok1 p rfl
          dsimp only at hres
          obtain ⟨hne2, hok2⟩ := ihB _ _ _ _ hres (by omega)
          exact ⟨hne2, fun r hr => le_trans (hok2 r hr) (by omega)⟩

/-- Helper: the top-level parse loop never runs out of budget either, given at
least twice the remaining token count plus one. -/
theorem parseLoop_fuel (n : Nat) :
    ∀ (s : TokenTrees) (vec : TokenStreamBuilder) (res : Except TTError TokenStream)
      (s' : TokenTrees),
      parseLoop n s vec = (res, s') → 2 * s.measure + 1 ≤ n →
      res ≠ .error .outOfFuel := by
  induction n with
  | zero =>
    intro s vec res s' _ hle
    exact absurd hle (by omega)
  | succ n ih =>
    intro s vec res s' hres hle
    simp only [parseLoop] at hres
    cases hc : s.current with
    | none =>
      rw [hc] at hres
      dsimp only at hres
      injection hres with h1 h2
      subst h1
      intro h
      injection h
    | some t =>
      rw [hc] at hres
      dsimp only at hres
      rcases hn : nextTokenTree n s with ⟨res1, s1⟩
      rw [hn] at hres
      have hsome : s.current.isSome = true := by rw [hc]; rfl
      obtain ⟨hne1, hok1⟩ := (fuel_sufficient n).1 _ _ _ hn hsome (by omega)
      cases res1 with
      | error e =>
        dsimp only at hres
        injection hres with h1 h2
        subst h1
        have he : e ≠ TTError.outOfFuel := fun h => hne1 (by rw [h])
        intro h
        injection h with h3
        exact he h3
      | ok p =>
        dsimp only at hres
        have := hok1 p rfl
        exact ih _ _ _ _ hres (by omega)

/-- Claim C9: on every raw-token source (our sources return no token,
permanently, once the finite list of pulls is exhausted) assembly terminates:
`TokenTrees.parse` returns either a built stream or a structural error within
its step budget — the budget `parseFuel`, linear in the input length, is never
exhausted, each consumed step consuming pulled tokens. -/
theorem parse_terminates (src : List (Spacing × Token)) :
    (∃ stream, TokenTrees.parse src = .ok stream) ∨
    (∃ e, TokenTrees.parse src = .error e ∧ e ≠ TTError.outOfFuel) := by
  have hmb : (((TokenTrees.new src).bump).2).measure = src.length := by
    rw [TokenTrees.bump_measure_none _ rfl]
    simp [TokenTrees.new, TokenTrees.measure]
  rcases hp : parseLoop (parseFuel src) (((TokenTrees.new src).bump).2) .new with ⟨res, s'⟩
  have hne : res ≠ .error .outOfFuel := by
    refine parseLoop_fuel (parseFuel src) _ _ _ _ hp ?_
    rw [hmb]
    unfold parseFuel
    omega
  have hparse : TokenTrees.parse src = res := by
    unfold TokenTrees.parse
    dsimp only
    rw [hp]
  cases res with
  | ok stream => exact Or.inl ⟨stream, hparse⟩
  | error e =>
    refine Or.inr ⟨e, hparse, ?_⟩
    intro h
    rw [h] at hne
    exact hne rfl

/-! ## Reachability of the defect (`unreachable`) branches -/

/-- Helper: the eof-or-close test returning true on a present token means the
token is a close delimiter. -/
theorem close_test_true (t : Token)
    (h : (match t.kind with | TokenKind.CloseDelim _ => true | _ => false) = true) :
    ∃ d sp, t = ⟨.CloseDelim d, sp⟩ := by
  obtain ⟨tk, tsp⟩ := t
  dsimp at h
  cases tk <;> simp at h
  rename_i d
  exact ⟨d, tsp, rfl⟩

/-- Helper: reading tokens until a close delimiter only stops, successfully,
at end of input or at a close delimiter, left in `current`. -/
theorem untilClose_stops (n : Nat) :
    ∀ (s : TokenTrees) (vec : TokenStreamBuilder) (r : TokenStream) (s' : TokenTrees),
      tokenTreesUntilCloseDelim n s vec = (.ok r, s') →
      s'.current = none ∨ ∃ d sp, s'.current = some ⟨.CloseDelim d, sp⟩ := by
  induction n with
  | zero =>
    intro s vec r s' h
    simp only [tokenTreesUntilCloseDelim] at h
    injection h with h1 h2
    injection h1
  | succ n ih =>
    intro s vec r s' hres
    simp only [tokenTreesUntilCloseDelim] at hres
    split at hres
    · injection hres with h1 h2
      subst h2
      rename_i hcond
      cases hc : s.current with
      | none => exact Or.inl rfl
      | some t =>
        rw [hc] at hcond
        obtain ⟨d, sp, rfl⟩ := close_test_true t hcond
        exact Or.inr ⟨d, sp, rfl⟩
    · rcases hn : nextTokenTree n s with ⟨res1, s1⟩
      rw [hn] at hres
      cases res1 with
      | error e =>
        dsimp only at hres
        injection hres with h1 h2
        injection h1
      | ok p =>
        dsimp only at hres
        exact ih _ _ _ _ hres

/-- Helper: neither assembler function can return the defect values belonging
to the `unreachable` branches at `token_tree.rs` lines 55 and 72, as long as
`next_token_tree` is entered with a token present. -/
theorem no_defect (n : Nat) :
    (∀ (s : TokenTrees) (res : Except TTError (TokenTree × Spacing)) (s' : TokenTrees),
        nextTokenTree n s = (res, s') → s.current.isSome = true →
        res ≠ .error .unreachableAfterInner ∧ res ≠ .error .unreachableNoCurrent) ∧
    (∀ (s : TokenTrees) (vec : TokenStreamBuilder) (res : Except TTError TokenStream)
        (s' : TokenTrees),
        tokenTreesUntilCloseDelim n s vec = (res, s') →
        res ≠ .error .unreachableAfterInner ∧ res ≠ .error .unreachableNoCurrent) := by
  induction n with
  | zero =>
    constructor
    · intro s res s' hres _
      simp only [nextTokenTree] at hres
      injection hres with h1 h2
      subst h1
      exact ⟨(by intro h; injection h with h3; cases h3),
        (by intro h; injection h with h3; cases h3)⟩
    · intro s vec res s' hres
      simp only [tokenTreesUntilCloseDelim] at hres
      injection hres with h1 h2
      subst h1
      exact ⟨(by intro h; injection h with h3; cases h3),
        (by intro h; injection h with h3; cases h3)⟩
  | succ n ih =>
    obtain ⟨ihA, ihB⟩ := ih
    constructor
    · intro s res s' hres hsome
      obtain ⟨t, hcur⟩ := Option.isSome_iff_exists.mp hsome
      simp only [nextTokenTree, hcur] at hres
      split at hres
      · -- open-delimiter branch
        rcases hu : tokenTreesUntilCloseDelim n ((s.bump).2) .new with ⟨res2, s2⟩
        rw [hu] at hres
        cases res2 with
        | error e =>
          dsimp only at hres
          injection hres with h1 h2
          subst h1
          obtain ⟨hx, hy⟩ := ihB _ _ _ _ hu
          have hex : e ≠ TTError.unreachableAfterInner := fun h => hx (by rw [h])
          have hey : e ≠ TTError.unreachableNoCurrent := fun h => hy (by rw [h])
          exact ⟨(by intro h; injection h with h3; exact hex h3),
            (by intro h; injection h with h3; exact hey h3)⟩
        | ok inner =>
          dsimp only at hres
          cases hc2 : s2.current with
          | none =>
            rw [hc2] at hres
            dsimp only at hres
            injection hres with h1 h2
            subst h1
            exact ⟨(by intro h; injection h with h3; cases h3),
              (by intro h; injection h with h3; cases h3)⟩
          | some c =>
            rw [hc2] at hres
            dsimp only at hres
            split at hres
            · split at hres
              · injection hres with h1 h2
                subst h1
                exact ⟨(by intro h; injection h), (by intro h; injection h)⟩
              · injection hres with h1 h2
                subst h1
                exact ⟨(by intro h; injection h with h3; cases h3),
                  (by intro h; injection h with h3; cases h3)⟩
            · -- the defect branch: contradiction with the stop condition
              exfalso
              rcases untilClose_stops n _ _ _ _ hu with hnone | ⟨d, sp, hclose⟩
              · rw [hc2] at hnone
                cases hnone
              · rw [hc2] at hclose
                injection hclose with h4
                subst h4
                rename_i hk
                exact hk d rfl
      · -- close-delimiter branch: a different defect value
        injection hres with h1 h2
        subst h1
        exact ⟨(by intro h; injection h with h3; cases h3),
          (by intro h; injection h with h3; cases h3)⟩
      · -- ordinary leaf token
        rcases hb : s.bump with ⟨sp, s1⟩
        rw [hb] at hres
        dsimp only at hres
        injection hres with h1 h2
        subst h1
        exact ⟨(by intro h; injection h), (by intro h; injection h)⟩
    · intro s vec res s' hres
      simp only [tokenTreesUntilCloseDelim] at hres
      split at hres
      · injection hres with h1 h2
        subst h1
        exact ⟨(by intro h; injection h), (by intro h; injection h)⟩
      · rcases hn : nextTokenTree n s with ⟨res1, s1⟩
        rw [hn] at hres
        have hsome : s.current.isSome = true := by
          rename_i hcond
          cases hc : s.current with
          | none => rw [hc] at hcond; simp at hcond
          | some t => rfl
        cases res1 with
        | error e =>
          dsimp only at hres
          injection hres with h1 h2
          subst h1
          obtain ⟨hx, hy⟩ := ihA _ _ _ hn hsome
          have hex : e ≠ TTError.unreachableAfterInner := fun h => hx (by rw [h])
          have hey : e ≠ TTError.unreachableNoCurrent := fun h => hy (by rw [h])
          exact ⟨(by intro h; injection h with h3; exact hex h3),
            (by intro h; injection h with h3; exact hey h3)⟩
        | ok p =>
          dsimp only at hres
          exact ihB _ _ _ _ hres

/-- Helper: the top-level parse loop never surfaces the defect values of the
two inner `unreachable` branches. -/
theorem parseLoop_no_defect (n : Nat) :
    ∀ (s : TokenTrees) (vec : TokenStreamBuilder) (res : Except TTError TokenStream)
      (s' : TokenTrees),
      parseLoop n s vec = (res, s') →
      res ≠ .error .unreachableAfterInner ∧ res ≠ .error .unreachableNoCurrent := by
  induction n with
  | zero =>
    intro s vec res s' hres
    simp only [parseLoop] at hres
    injection hres with h1 h2
    subst h1
    exact ⟨(by intro h; injection h with h3; cases h3),
      (by intro h; injection h with h3; cases h3)⟩
  | succ n ih =>
    intro s vec res s' hres
    simp only [parseLoop] at hres
    cases hc : s.current with
    | none =>
      rw [hc] at hres
      dsimp only at hres
      injection hres with h1 h2
      subst h1
      exact ⟨(by intro h; injection h), (by intro h; injection h)⟩
    | some t =>
      rw [hc] at hres
      dsimp only at hres
      rcases hn : nextTokenTree n s with ⟨res1, s1⟩
      rw [hn] at hres
      have hsome : s.current.isSome = true := by rw [hc]; rfl
      cases res1 with
      | error e =>
        dsimp only at hres
        injection hres with h1 h2
        subst h1
        obtain ⟨hx, hy⟩ := (no_defect n).1 _ _ _ hn hsome
        have hex : e ≠ TTError.unreachableAfterInner := fun h => hx (by rw [h])
        have hey : e ≠ TTError.unreachableNoCurrent := fun h => hy (by rw [h])
        exact ⟨(by intro h; injection h with h3; exact hex h3),
          (by intro h; injection h with h3; exact hey h3)⟩
      | ok p =>
        dsimp only at hres
        exact ih _ _ _ _ hres

/-- Counterexample for claim C6: on the one-token raw source holding a bare
close parenthesis, `parse` does invoke `next_token_tree` while `current` holds
a close delimiter — the `unreachable` close-delimiter branch executes and its
defect value surfaces. -/
theorem parse_bare_close_hits_close_delim_branch :
    TokenTrees.parse [(.Alone, ⟨.CloseDelim .Parenthesis, ⟨0, 1⟩⟩)]
      = .error .unreachableCloseDelim := rfl

/-- Claim C6, amended: `token_trees_until_close_delim` checks `current` before
every call, so the defect branch for a non-close, non-absent token after the
inner read, and the defect branch for an absent token, are unreachable — for
every raw-token source, `parse` never surfaces either defect value. The
close-delimiter branch, however, is reachable from the top-level `parse` loop
(which only checks that `current` is present) on a source emitting a bare
close delimiter at top level. -/
theorem parse_never_hits_inner_defect_branches (src : List (Spacing × Token)) :
    TokenTrees.parse src ≠ .error .unreachableAfterInner ∧
    TokenTrees.parse src ≠ .error .unreachableNoCurrent := by
  rcases hp : parseLoop (parseFuel src) (((TokenTrees.new src).bump).2) .new with ⟨res, s'⟩
  have hparse : TokenTrees.parse src = res := by
    unfold TokenTrees.parse
    dsimp only
    rw [hp]
  rw [hparse]
  exact parseLoop_no_defect (parseFuel src) _ _ _ _ hp

/-- Witness for the amended claim C6, at the empty raw-token source. -/
theorem parse_never_hits_inner_defect_branches_witness :
    TokenTrees.parse [] ≠ .error .unreachableAfterInner :=
  (parse_never_hits_inner_defect_branches []).1

/-! ## Structural invariants of successfully built streams -/

/-- The tokens the assembler can still consume from state `s`: the lookahead
plus the pending pulls. -/
def TokenTrees.tokensOf (s : TokenTrees) : List Token :=
  s.current.toList ++ s.tokens.map Prod.snd

theorem TokenTrees.bump_tokensOf (s : TokenTrees) :
    ((s.bump).2).tokensOf ⊆ s.tokensOf := by
  obtain ⟨tokens, current⟩ := s
  cases tokens with
  | nil => simp [TokenTrees.bump, TokenTrees.tokensOf]
  | cons p rest =>
    obtain ⟨sp, t⟩ := p
    simp only [TokenTrees.bump, TokenTrees.tokensOf, Option.toList_some, List.map_cons]
    exact List.subset_append_right _ _

theorem TokenTrees.current_mem_tokensOf (s : TokenTrees) (t : Token)
    (h : s.current = some t) : t ∈ s.tokensOf := by
  unfold TokenTrees.tokensOf
  rw [h]
  exact List.mem_append_left _ (by simp)

/-- Every `Delimited` element of the tree, at any nesting depth, carries
`open`/`close` spans taken from delimiter tokens of the source that are of the
same delimiter kind as its `delim` field. -/
inductive DelimSpansConsumed (src : List Token) : TokenTree → Prop where
  | token (tok : Token) : DelimSpansConsumed src (.Token tok)
  | delimited (openSpan closeSpan : Span) (delim : Delimiter) (inner : TokenStream)
      (hopen : (⟨.OpenDelim delim, openSpan⟩ : Token) ∈ src)
      (hclose : (⟨.CloseDelim delim, closeSpan⟩ : Token) ∈ src)
      (hinner : ∀ p ∈ inner, DelimSpansConsumed src p.1) :
      DelimSpansConsumed src (.Delimited openSpan closeSpan delim inner)

/-- No leaf token of the tree, at any nesting depth, is of an open- or
close-delimiter kind. -/
inductive NoDelimLeaf : TokenTree → Prop where
  | token (tok : Token) (h : isDelimKind tok.kind = false) : NoDelimLeaf (.Token tok)
  | delimited (openSpan closeSpan : Span) (delim : Delimiter) (inner : TokenStream)
      (hinner : ∀ p ∈ inner, NoDelimLeaf p.1) :
      NoDelimLeaf (.Delimited openSpan closeSpan delim inner)

theorem DelimSpansConsumed.mono {src src' : List Token} (hsub : src ⊆ src')
    {t : TokenTree} (h : DelimSpansConsumed src t) : DelimSpansConsumed src' t := by
  induction h with
  | token tok => exact .token tok
  | delimited o c d inner ho hc hinner ih => exact .delimited o c d inner (hsub ho) (hsub hc) ih

/-- The combined invariant carried through assembly. -/
def PairOk (src : List Token) (p : TokenTree × Spacing) : Prop :=
  DelimSpansConsumed src p.1 ∧ NoDelimLeaf p.1

theorem isDelimKind_false_of_not (k : TokenKind)
    (h1 : ∀ d, k = TokenKind.OpenDelim d → False)
    (h2 : ∀ d, k = TokenKind.CloseDelim d → False) : isDelimKind k = false := by
  cases k <;> first
    | rfl
    | exact absurd rfl (h1 _)
    | exact absurd rfl (h2 _)

/-- Helper: pushing an invariant-satisfying pair into a builder of
invariant-satisfying pairs yields only invariant-satisfying pairs — gluing
replaces a leaf by a leaf whose kind, by `glue_not_delim`, is no delimiter. -/
theorem push_pairOk (src : List Token) (b : TokenStreamBuilder) (p : TokenTree × Spacing)
    (hb : ∀ q ∈ b.vec, PairOk src q) (hp : PairOk src p) :
    ∀ q ∈ (b.push p).vec, PairOk src q := by
  obtain ⟨tree, joint⟩ := p
  have happ : ∀ q ∈ b.vec ++ [(tree, joint)], PairOk src q := by
    intro q hq
    rcases List.mem_append.mp hq with h1 | h2
    · exact hb q h1
    · rw [List.mem_singleton.mp h2]
      exact hp
  rcases hl : b.vec.getLast? with _ | ⟨ptree, psp⟩
  · intro q hq
    simp only [TokenStreamBuilder.push, hl] at hq
    exact happ q hq
  · cases ptree with
    | Delimited o c d i =>
      intro q hq
      simp only [TokenStreamBuilder.push, hl] at hq
      exact happ q hq
    | Token prev =>
      cases psp with
      | Alone =>
        intro q hq
        simp only [TokenStreamBuilder.push, hl] at hq
        exact happ q hq
      | Joint =>
        cases tree with
        | Delimited o c d i =>
          intro q hq
          simp only [TokenStreamBuilder.push, hl] at hq
          exact happ q hq
        | Token token =>
          rcases hg : Token.glue prev token with _ | glued
          · intro q hq
            simp only [TokenStreamBuilder.push, hl, hg] at hq
            exact happ q hq
          · intro q hq
            simp only [TokenStreamBuilder.push, hl, hg] at hq
            rcases List.mem_append.mp hq with h1 | h2
            · exact hb q (List.dropLast_subset _ h1)
            · rw [List.mem_singleton.mp h2]
              exact ⟨.token _, .token _ (glue_not_delim prev token glued hg)⟩

/-- Helper: every pair produced by a successful assembly step satisfies the
combined invariant relative to any list containing the tokens the step could
consume, and steps only consume tokens. -/
theorem build_invariant (n : Nat) :
    (∀ (s : TokenTrees) (p : TokenTree × Spacing) (s' : TokenTrees),
        nextTokenTree n s = (.ok p, s') →
        s'.tokensOf ⊆ s.tokensOf ∧
        ∀ src, s.tokensOf ⊆ src → PairOk src p) ∧
    (∀ (s : TokenTrees) (vec : TokenStreamBuilder) (r : TokenStream) (s' : TokenTrees),
        tokenTreesUntilCloseDelim n s vec = (.ok r, s') →
        s'.tokensOf ⊆ s.tokensOf ∧
        ∀ src, s.tokensOf ⊆ src → (∀ q ∈ vec.vec, PairOk src q) → ∀ q ∈ r, PairOk src q) := by
  induction n with
  | zero =>
    constructor
    · intro s p s' hres
      simp only [nextTokenTree] at hres
      injection hres with h1 h2
      injection h1
    · intro s vec r s' hres
      simp only [tokenTreesUntilCloseDelim] at hres
      injection hres with h1 h2
      injection h1
  | succ n ih =>
    obtain ⟨ihA, ihB⟩ := ih
    constructor
    · intro s p s' hres
      cases hcur : s.current with
      | none =>
        simp only [nextTokenTree, hcur] at hres
        injection hres with h1 h2
        injection h1
      | some t =>
        simp only [nextTokenTree, hcur] at hres
        split at hres
        · -- open-delimiter branch
          rename_i delim htk
          rcases hu : tokenTreesUntilCloseDelim n ((s.bump).2) .new with ⟨res2, s2⟩
          rw [hu] at hres
          cases res2 with
          | error e =>
            dsimp only at hres
            injection hres with h1 h2
            injection h1
          | ok inner =>
            dsimp only at hres
            obtain ⟨hsub2, hok2⟩ := ihB _ _ _ _ hu
            cases hc2 : s2.current with
            | none =>
              rw [hc2] at hres
              dsimp only at hres
              injection hres with h1 h2
              injection h1
            | some c =>
              rw [hc2] at hres
              dsimp only at hres
              split at hres
              · rename_i d hck
                split at hres
                · rename_i hd
                  injection hres with h1 h2
                  injection h1 with h1
                  subst h1
                  subst h2
                  subst hd
                  have ht : (⟨TokenKind.OpenDelim d, t.span⟩ : Token) = t := by
                    obtain ⟨tk, tsp⟩ := t
                    dsimp only at htk
                    rw [htk]
                  have hcl : (⟨TokenKind.CloseDelim d, c.span⟩ : Token) = c := by
                    obtain ⟨ck, csp⟩ := c
                    dsimp only at hck
                    rw [hck]
                  constructor
                  · exact List.Subset.trans (TokenTrees.bump_tokensOf s2)
                      (List.Subset.trans hsub2 (TokenTrees.bump_tokensOf s))
                  · intro src hsrc
                    have hsub_bump : ((s.bump).2).tokensOf ⊆ src :=
                      List.Subset.trans (TokenTrees.bump_tokensOf s) hsrc
                    have hinner : ∀ q ∈ inner, PairOk src q :=
                      hok2 src hsub_bump (fun q hq => absurd hq (List.not_mem_nil q))
                    have hopen : (⟨TokenKind.OpenDelim d, t.span⟩ : Token) ∈ src := by
                      rw [ht]
                      exact hsrc (TokenTrees.current_mem_tokensOf s t hcur)
                    have hclose : (⟨TokenKind.CloseDelim d, c.span⟩ : Token) ∈ src := by
                      rw [hcl]
                      exact hsub_bump (hsub2 (TokenTrees.current_mem_tokensOf s2 c hc2))
                    exact ⟨.delimited _ _ _ _ hopen hclose (fun q hq => (hinner q hq).1),
                      .delimited _ _ _ _ (fun q hq => (hinner q hq).2)⟩
                · injection hres with h1 h2
                  injection h1
              · injection hres with h1 h2
                injection h1
        · -- close-delimiter branch
          injection hres with h1 h2
          injection h1
        · -- ordinary leaf token
          rename_i hne1 hne2
          rcases hb : s.bump with ⟨sp1, s1⟩
          rw [hb] at hres
          dsimp only at hres
          injection hres with h1 h2
          injection h1 with h1
          subst h1
          subst h2
          constructor
          · have h := TokenTrees.bump_tokensOf s
            rw [hb] at h
            exact h
          · intro src hsrc
            refine ⟨.token t, .token t (isDelimKind_false_of_not t.kind ?_ ?_)⟩
            · intro d hd
              exact hne1 d hd
            · intro d hd
              exact hne2 d hd
    · intro s vec r s' hres
      simp only [tokenTreesUntilCloseDelim] at hres
      split at hres
      · injection hres with h1 h2
        injection h1 with h1
        subst h1
        subst h2
        refine ⟨fun q hq => hq, ?_⟩
        intro src _ hvec
        exact hvec
      · rcases hn : nextTokenTree n s with ⟨res1, s1⟩
        rw [hn] at hres
        cases res1 with
        | error e =>
          dsimp only at hres
          injection hres with h1 h2
          injection h1
        | ok p =>
          dsimp only at hres
          obtain ⟨hsubA, hokA⟩ := ihA _ _ _ hn
          obtain ⟨hsubB, hokB⟩ := ihB _ _ _ _ hres
          refine ⟨List.Subset.trans hsubB hsubA, ?_⟩
          intro src hsrc hvec
          exact hokB src (List.Subset.trans hsubA hsrc)
            (push_pairOk src vec p hvec (hokA src hsrc))

/-- Helper: the top-level parse loop preserves the combined invariant. -/
theorem parseLoop_invariant (n : Nat) :
    ∀ (s : TokenTrees) (vec : TokenStreamBuilder) (r : TokenStream) (s' : TokenTrees),
      parseLoop n s vec = (.ok r, s') →
      ∀ src, s.tokensOf ⊆ src → (∀ q ∈ vec.vec, PairOk src q) → ∀ q ∈ r, PairOk src q := by
  induction n with
  | zero =>
    intro s vec r s' hres
    simp only [parseLoop] at hres
    injection hres with h1 h2
    injection h1
  | succ n ih =>
    intro s vec r s' hres
    simp only [parseLoop] at hres
    cases hc : s.current with
    | none =>
      rw [hc] at hres
      dsimp only at hres
      injection hres with h1 h2
      injection h1 with h1
      subst h1
      intro src _ hvec
      exact hvec
    | some t =>
      rw [hc] at hres
      dsimp only at hres
      rcases hn : nextTokenTree n s with ⟨res1, s1⟩
      rw [hn] at hres
      cases res1 with
      | error e =>
        dsimp only at hres
        injection hres with h1 h2
        injection h1
      | ok p =>
        dsimp only at hres
        obtain ⟨hsubA, hokA⟩ := (build_invariant n).1 _ _ _ hn
        intro src hsrc hvec
        exact ih _ _ _ _ hres src (List.Subset.trans hsubA hsrc)
          (push_pairOk src vec p hvec (hokA src hsrc))

/-- Helper: the tokens reachable from the initial state of a parse are exactly
the source's tokens. -/
theorem init_tokensOf (src : List (Spacing × Token)) :
    (((TokenTrees.new src).bump).2).tokensOf ⊆ src.map Prod.snd := by
  have h := TokenTrees.bump_tokensOf (TokenTrees.new src)
  simpa [TokenTrees.new, TokenTrees.tokensOf] using h

/-- Claim C5: on every raw-token source on which `parse` succeeds, every
`Delimited` element of the resulting stream, at any nesting depth, has its
`open` span taken from a consumed open-delimiter token of the source and its
`close` span from a consumed close-delimiter token of the source, both of the
same delimiter kind as its `delim` field; mismatched or unmatched pairs never
yield a `Delimited` element (they yield errors instead, see the error
theorems). -/
theorem parse_delimited_spans_consumed (src : List (Spacing × Token)) (stream : TokenStream)
    (h : TokenTrees.parse src = .ok stream) :
    ∀ p ∈ stream, DelimSpansConsumed (src.map Prod.snd) p.1 := by
  rcases hp : parseLoop (parseFuel src) (((TokenTrees.new src).bump).2) .new with ⟨res, s'⟩
  have hparse : TokenTrees.parse src = res := by
    unfold TokenTrees.parse
    dsimp only
    rw [hp]
  rw [hparse] at h
  subst h
  intro p hmem
  exact (parseLoop_invariant (parseFuel src) _ _ _ _ hp (src.map Prod.snd)
    (init_tokensOf src) (fun q hq => absurd hq (List.not_mem_nil q)) p hmem).1

/-- Witness for claim C5: parsing the source `(, a, )` succeeds with a single
`Delimited` group whose `open`/`close` spans are those of the consumed
parenthesis tokens. -/
theorem parse_delimited_spans_consumed_witness :
    DelimSpansConsumed
      [⟨.OpenDelim .Parenthesis, ⟨0, 1⟩⟩, ⟨.Ident "a" false, ⟨2, 3⟩⟩,
        ⟨.CloseDelim .Parenthesis, ⟨4, 5⟩⟩]
      (.Delimited ⟨0, 1⟩ ⟨4, 5⟩ .Parenthesis [(.Token ⟨.Ident "a" false, ⟨2, 3⟩⟩, .Alone)]) :=
  (parse_delimited_spans_consumed
    [(.Alone, ⟨.OpenDelim .Parenthesis, ⟨0, 1⟩⟩), (.Alone, ⟨.Ident "a" false, ⟨2, 3⟩⟩),
      (.Alone, ⟨.CloseDelim .Parenthesis, ⟨4, 5⟩⟩)]
    [(.Delimited ⟨0, 1⟩ ⟨4, 5⟩ .Parenthesis [(.Token ⟨.Ident "a" false, ⟨2, 3⟩⟩, .Alone)],
      .Alone)]
    rfl
    (.Delimited ⟨0, 1⟩ ⟨4, 5⟩ .Parenthesis [(.Token ⟨.Ident "a" false, ⟨2, 3⟩⟩, .Alone)],
      .Alone)
    (List.mem_singleton.mpr rfl))

/-- Claim C10: on every raw-token source on which `parse` succeeds, the
resulting stream contains no leaf token of open- or close-delimiter kind at
any nesting depth: consumed delimiters only ever become the boundary spans of
`Delimited` groups, and gluing never produces a delimiter kind. -/
theorem parse_no_delim_leaf (src : List (Spacing × Token)) (stream : TokenStream)
    (h : TokenTrees.parse src = .ok stream) :
    ∀ p ∈ stream, NoDelimLeaf p.1 := by
  rcases hp : parseLoop (parseFuel src) (((TokenTrees.new src).bump).2) .new with ⟨res, s'⟩
  have hparse : TokenTrees.parse src = res := by
    unfold TokenTrees.parse
    dsimp only
    rw [hp]
  rw [hparse] at h
  subst h
  intro p hmem
  exact (parseLoop_invariant (parseFuel src) _ _ _ _ hp (src.map Prod.snd)
    (init_tokensOf src) (fun q hq => absurd hq (List.not_mem_nil q)) p hmem).2

/-- Witness for claim C10: parsing the source `[, ., ]` succeeds with a single
`Delimited` group containing no delimiter-kind leaf. -/
theorem parse_no_delim_leaf_witness :
    NoDelimLeaf (.Delimited ⟨0, 1⟩ ⟨2, 3⟩ .Bracket [(.Token ⟨.Dot, ⟨1, 2⟩⟩, .Alone)]) :=
  (parse_no_delim_leaf
    [(.Alone, ⟨.OpenDelim .Bracket, ⟨0, 1⟩⟩), (.Alone, ⟨.Dot, ⟨1, 2⟩⟩),
      (.Alone, ⟨.CloseDelim .Bracket, ⟨2, 3⟩⟩)]
    [(.Delimited ⟨0, 1⟩ ⟨2, 3⟩ .Bracket [(.Token ⟨.Dot, ⟨1, 2⟩⟩, .Alone)], .Alone)]
    rfl
    (.Delimited ⟨0, 1⟩ ⟨2, 3⟩ .Bracket [(.Token ⟨.Dot, ⟨1, 2⟩⟩, .Alone)], .Alone)
    (List.mem_singleton.mpr rfl))

end Dendro
